import Mathlib

/-!
Verification of the GitHub-stats README updater.

The aggregation core, the marker-region document update and the top-level
run skeleton of the script are embedded as executable Lean definitions,
translated from the source; machine numbers are modelled as `Nat`
(the quantities are small non-negative counts that cannot overflow a
JS double in realistic use).
-/

/-- One ownership-visibility bucket of fetched repositories.  The source
checks partition membership by object identity against the four fetched
node arrays; since every fetched object belongs to exactly one array, this
is equivalent to a tag set at ingestion. -/
inductive Bucket where
  | ownedPublic
  | ownedPrivate
  | orgPublic
  | orgPrivate
deriving DecidableEq

/-- One fetched repository record, as projected by the detail query.
`defaultBranchCommitCount` is `none` when the repository has no default
branch (the source reads it through optional chaining and defaults to 0);
likewise `pullRequestsCount`.  `languages` is the (at most 10 entry)
language byte list in API order. -/
structure Repo where
  name : String
  stargazerCount : Nat
  forkCount : Nat
  isPrivate : Bool
  isFork : Bool
  defaultBranchCommitCount : Option Nat
  pullRequestsCount : Option Nat
  languages : List (String × Nat)
  bucket : Bucket
deriving DecidableEq

/-- `repo.defaultBranchRef?.target?.history?.totalCount || 0` -/
def commitCount (r : Repo) : Nat := r.defaultBranchCommitCount.getD 0

/-- `repo.pullRequests?.totalCount || 0` -/
def prCount (r : Repo) : Nat := r.pullRequestsCount.getD 0

/-- `v.ownedPublic.nodes.includes(repo) || v.ownedPrivate.nodes.includes(repo)` -/
def isOwned (r : Repo) : Bool :=
  r.bucket == Bucket.ownedPublic || r.bucket == Bucket.ownedPrivate

/-- `v.orgPublic.nodes.includes(repo) || v.orgPrivate.nodes.includes(repo)` -/
def isOrg (r : Repo) : Bool :=
  r.bucket == Bucket.orgPublic || r.bucket == Bucket.orgPrivate

/-- Body of the `allRepos.filter(repo => ...)` callback: owned repos are
always included, org repos only when the default branch has commits. -/
def includeRepo (r : Repo) : Bool :=
  if isOwned r then true else decide (0 < commitCount r)

/-- `const contributedRepos = allRepos.filter(...)` -/
def contributedRepos (l : List Repo) : List Repo := l.filter includeRepo

/-- `contributedRepos.reduce((s, r) => s + r.stargazerCount, 0)` -/
def stars (l : List Repo) : Nat :=
  (contributedRepos l).foldl (fun s r => s + r.stargazerCount) 0

/-- `contributedRepos.reduce((s, r) => s + r.forkCount, 0)` -/
def forks (l : List Repo) : Nat :=
  (contributedRepos l).foldl (fun s r => s + r.forkCount) 0

/-- `contributedRepos.reduce((sum, repo) => sum + (…history?.totalCount || 0), 0)` -/
def totalCommits (l : List Repo) : Nat :=
  (contributedRepos l).foldl (fun s r => s + commitCount r) 0

/-- `contributedRepos.reduce((sum, repo) => sum + (repo.pullRequests?.totalCount || 0), 0)` -/
def totalPRs (l : List Repo) : Nat :=
  (contributedRepos l).foldl (fun s r => s + prCount r) 0

/-- `contributedRepos.filter(r => r.isFork).length` -/
def forkedRepos (l : List Repo) : Nat :=
  ((contributedRepos l).filter (fun r => r.isFork)).length

/-- `contributedRepos.filter(r => owned-partition membership)` -/
def ownedContributed (l : List Repo) : List Repo :=
  (contributedRepos l).filter isOwned

/-- `contributedRepos.filter(r => org-partition membership)` -/
def orgContributed (l : List Repo) : List Repo :=
  (contributedRepos l).filter isOrg

theorem foldl_add_eq_sum (f : Repo → Nat) :
    ∀ (l : List Repo) (n : Nat),
      l.foldl (fun s r => s + f r) n = n + (l.map f).sum := by
  intro l
  induction l with
  | nil => intro n; simp
  | cons x xs ih =>
    intro n
    simp only [List.foldl_cons, List.map_cons, List.sum_cons, ih]
    omega

/-- Claim C1: a fetched record is in the contributed set iff it is in the
fetched set and either belongs to an owned partition (unconditionally) or
belongs to an organization partition with a strictly positive
default-branch commit count (absent default branch counting as zero). -/
theorem c1_inclusion_predicate (r : Repo) (l : List Repo) :
    r ∈ contributedRepos l ↔ r ∈ l ∧ (isOwned r = true ∨ 0 < commitCount r) := by
  have hinc : (includeRepo r = true) ↔ (isOwned r = true ∨ 0 < commitCount r) := by
    unfold includeRepo
    by_cases hi : isOwned r = true <;> simp [hi]
  rw [contributedRepos, List.mem_filter, hinc]

theorem contributed_perm {l l' : List Repo} (h : l.Perm l') :
    (contributedRepos l).Perm (contributedRepos l') := h.filter _

/-- Claim C3: each total is the arithmetic sum (or count) over the included
records, and every total is invariant under permutation of the fetched
list. -/
theorem c3_aggregate_totals (l l' : List Repo) (h : l.Perm l') :
    (stars l = ((contributedRepos l).map (fun r => r.stargazerCount)).sum
      ∧ forks l = ((contributedRepos l).map (fun r => r.forkCount)).sum
      ∧ totalCommits l = ((contributedRepos l).map commitCount).sum
      ∧ totalPRs l = ((contributedRepos l).map prCount).sum
      ∧ forkedRepos l = (contributedRepos l).countP (fun r => r.isFork))
    ∧ (stars l = stars l' ∧ forks l = forks l' ∧ totalCommits l = totalCommits l'
      ∧ totalPRs l = totalPRs l' ∧ forkedRepos l = forkedRepos l') := by
  have hc := contributed_perm h
  refine ⟨⟨?_, ?_, ?_, ?_, ?_⟩, ?_, ?_, ?_, ?_, ?_⟩
  · simp [stars, foldl_add_eq_sum]
  · simp [forks, foldl_add_eq_sum]
  · simp [totalCommits, foldl_add_eq_sum]
  · simp [totalPRs, foldl_add_eq_sum]
  · simp [forkedRepos, List.countP_eq_length_filter]
  · simp only [stars, foldl_add_eq_sum]
    exact congrArg (0 + ·) (hc.map _).sum_eq
  · simp only [forks, foldl_add_eq_sum]
    exact congrArg (0 + ·) (hc.map _).sum_eq
  · simp only [totalCommits, foldl_add_eq_sum]
    exact congrArg (0 + ·) (hc.map _).sum_eq
  · simp only [totalPRs, foldl_add_eq_sum]
    exact congrArg (0 + ·) (hc.map _).sum_eq
  · simp only [forkedRepos]
    exact (hc.filter _).length_eq

/-- An owned repository fixture (spec scenario of section 8). -/
def mkOwned (nm : String) (st : Nat) (fk : Bool) (langs : List (String × Nat)) : Repo :=
  { name := nm, stargazerCount := st, forkCount := 0, isPrivate := false,
    isFork := fk, defaultBranchCommitCount := some 10, pullRequestsCount := some 0,
    languages := langs, bucket := Bucket.ownedPublic }

/-- An organization repository fixture with a given default-branch commit count. -/
def mkOrg (nm : String) (cc : Nat) : Repo :=
  { name := nm, stargazerCount := 0, forkCount := 0, isPrivate := false,
    isFork := false, defaultBranchCommitCount := some cc, pullRequestsCount := some 0,
    languages := [], bucket := Bucket.orgPublic }

def scenL : List Repo :=
  [mkOwned "a" 5 false [], mkOwned "b" 2 true [], mkOwned "c" 0 false [],
   mkOrg "d" 3, mkOrg "e" 0]

def scenL' : List Repo :=
  [mkOwned "b" 2 true [], mkOwned "a" 5 false [], mkOwned "c" 0 false [],
   mkOrg "d" 3, mkOrg "e" 0]

example : stars scenL = 7 ∧ forkedRepos scenL = 1
    ∧ (contributedRepos scenL).length = 4 := by decide

theorem c3_aggregate_totals_witness :
    scenL.Perm scenL' ∧ stars scenL = stars scenL' ∧ forkedRepos scenL = forkedRepos scenL' :=
  ⟨by decide,
   (c3_aggregate_totals scenL scenL' (by decide)).2.1,
   (c3_aggregate_totals scenL scenL' (by decide)).2.2.2.2.2⟩

/-- `langMap[lang] = (langMap[lang] || 0) + edge.size` on a JS object whose
string keys enumerate in insertion order: an association list updated in
place, appending unseen keys. -/
def addLang (m : List (String × Nat)) (lang : String) (sz : Nat) : List (String × Nat) :=
  if m.any (fun p => p.1 == lang) then
    m.map (fun p => if p.1 == lang then (p.1, p.2 + sz) else p)
  else m ++ [(lang, sz)]

/-- The `for (const repo of contributedRepos) for (const edge of repo.languages.edges)`
accumulation into `langMap`. -/
def buildLangMap (l : List Repo) : List (String × Nat) :=
  l.foldl (fun m r => r.languages.foldl (fun m e => addLang m e.1 e.2) m) []

/-- One step of the stable descending sort `(a, b) => b[1] - a[1]`:
the new entry is placed after every entry with an equal or larger byte
count, so equal counts keep first-seen order. -/
def insEntry (x : String × Nat) : List (String × Nat) → List (String × Nat)
  | [] => [x]
  | y :: ys => if y.2 < x.2 then x :: y :: ys else y :: insEntry x ys

/-- `Object.entries(langMap).sort((a, b) => b[1] - a[1])` — a stable sort,
as required of `Array.prototype.sort` since ES2019. -/
def sortLangs (m : List (String × Nat)) : List (String × Nat) :=
  m.foldl (fun acc x => insEntry x acc) []

/-- `Object.values(langMap).reduce((a, b) => a + b, 0)` -/
def totalBytes (m : List (String × Nat)) : Nat :=
  (m.map (fun p => p.2)).foldl (· + ·) 0

/-- `Math.round(bytes / totalBytes * 100)` rendered as text.  On the
rationals in range this is round-half-up, `(200b + t) / 2t` in integer
division; a zero denominator yields the IEEE `NaN` (or `Infinity`) that JS
prints, not a fault.  (The JS double evaluation can in principle differ
from the exact rational at a half-way boundary; the quantities proved
about below are exact.) -/
def pctString (bytes tb : Nat) : String :=
  if tb = 0 then (if bytes = 0 then "NaN" else "Infinity")
  else toString ((200 * bytes + tb) / (2 * tb))

/-- `.sort(...).slice(0, 6).map(([name, bytes]) => ...).join(", ") || "—"`:
only the empty string is falsy, so the em-dash placeholder appears exactly
when the joined list is empty. -/
def renderTopLangs (m : List (String × Nat)) : String :=
  let tb := totalBytes m
  let entries := ((sortLangs m).take 6).map (fun p => p.1 ++ " (" ++ pctString p.2 tb ++ "%)")
  let joined := String.intercalate ", " entries
  if joined = "" then "—" else joined

/-- The whole `topLangs` pipeline from the fetched list. -/
def topLangsStr (l : List Repo) : String :=
  renderTopLangs (buildLangMap (contributedRepos l))

theorem insEntry_perm (x : String × Nat) (l : List (String × Nat)) :
    (insEntry x l).Perm (x :: l) := by
  induction l with
  | nil => exact List.Perm.refl _
  | cons y ys ih =>
    unfold insEntry
    by_cases h : y.2 < x.2
    · simp [h]
    · simp only [h, if_false]
      exact (ih.cons y).trans (List.Perm.swap x y ys)

theorem sortLangs_perm_aux :
    ∀ (l acc : List (String × Nat)),
      (l.foldl (fun acc x => insEntry x acc) acc).Perm (acc ++ l) := by
  intro l
  induction l with
  | nil => intro acc; simp
  | cons x xs ih =>
    intro acc
    simp only [List.foldl_cons]
    refine (ih (insEntry x acc)).trans ?_
    refine (((insEntry_perm x acc).append_right xs).trans ?_)
    simpa using List.perm_middle.symm

theorem mem_insEntry {a x : String × Nat} {l : List (String × Nat)}
    (h : a ∈ insEntry x l) : a = x ∨ a ∈ l := by
  have := (insEntry_perm x l).mem_iff.mp h
  simpa using this

theorem insEntry_pairwise {x : String × Nat} {l : List (String × Nat)}
    (h : l.Pairwise (fun a b => b.2 ≤ a.2)) :
    (insEntry x l).Pairwise (fun a b => b.2 ≤ a.2) := by
  induction l with
  | nil => simp [insEntry]
  | cons y ys ih =>
    rcases List.pairwise_cons.mp h with ⟨hy, hys⟩
    unfold insEntry
    by_cases hxy : y.2 < x.2
    · simp only [hxy, if_true]
      refine List.pairwise_cons.mpr ⟨?_, h⟩
      intro b hb
      rcases List.mem_cons.mp hb with rfl | hb
      · omega
      · have := hy b hb; omega
    · simp only [hxy, if_false]
      refine List.pairwise_cons.mpr ⟨?_, ih hys⟩
      intro b hb
      rcases mem_insEntry hb with rfl | hb
      · omega
      · exact hy b hb

theorem sortLangs_pairwise_aux :
    ∀ (l acc : List (String × Nat)),
      acc.Pairwise (fun a b => b.2 ≤ a.2) →
      (l.foldl (fun acc x => insEntry x acc) acc).Pairwise (fun a b => b.2 ≤ a.2) := by
  intro l
  induction l with
  | nil => intro acc h; simpa using h
  | cons x xs ih =>
    intro acc h
    simp only [List.foldl_cons]
    exact ih _ (insEntry_pairwise h)

/-- Claim C2: the language ranking merges the per-repository byte maps,
sorts by accumulated bytes descending with ties in first-seen order, takes
six, and renders independently rounded percentages; on the spec scenario
(map Go 300, Rust 100, TS 100) it renders "Go (60%), Rust (20%), TS (20%)".
The sorted list is a permutation of the merged map and is pairwise
non-increasing in byte count. -/
theorem c2_language_ranking :
    topLangsStr [mkOwned "r1" 0 false [("Go", 300), ("Rust", 100)],
                 mkOwned "r2" 0 false [("TS", 100)]]
      = "Go (60%), Rust (20%), TS (20%)"
    ∧ ∀ m : List (String × Nat),
        (sortLangs m).Perm m ∧ (sortLangs m).Pairwise (fun a b => b.2 ≤ a.2) := by
  refine ⟨by decide, fun m => ⟨?_, ?_⟩⟩
  · simpa using sortLangs_perm_aux m []
  · exact sortLangs_pairwise_aux m [] (List.Pairwise.nil)

/-- An included repository whose only language entry carries zero bytes:
the merged map is nonempty while the accumulated byte total is zero. -/
def ghostRepo : Repo := mkOwned "g" 0 false [("Ghost", 0)]

/-- Claim C4 as stated is false on the code: with a nonempty merged
language map whose byte counts are all zero, the joined string is truthy,
so the `|| "—"` fallback is skipped and the field renders a NaN
percentage instead of the placeholder. -/
theorem c4_placeholder_counterexample :
    totalBytes (buildLangMap (contributedRepos [ghostRepo])) = 0
    ∧ topLangsStr [ghostRepo] = "Ghost (NaN%)"
    ∧ topLangsStr [ghostRepo] ≠ "—" := by decide

/-- Claim C4, amended: the rendered language field equals the em-dash
placeholder exactly when the merged language map is empty — in particular
when there are no included repositories; evaluation is total, so no
divide-by-zero fault can occur. -/
theorem c4_placeholder_amended (l : List Repo)
    (h : buildLangMap (contributedRepos l) = []) : topLangsStr l = "—" := by
  rw [topLangsStr, h]
  rfl

theorem c4_placeholder_amended_witness :
    buildLangMap (contributedRepos []) = [] ∧ topLangsStr [] = "—" :=
  ⟨rfl, c4_placeholder_amended [] rfl⟩

/-- The start sentinel, the characters of the text between
the comment delimiters in the regex and the replacement template. -/
def startM : List Char :=
  ['<', '!', '-', '-', 'G', 'I', 'T', 'H', 'U', 'B', '_', 'S', 'T', 'A', 'T',
   'S', '_', 'S', 'T', 'A', 'R', 'T', '-', '-', '>']

/-- The end sentinel. -/
def endM : List Char :=
  ['<', '!', '-', '-', 'G', 'I', 'T', 'H', 'U', 'B', '_', 'S', 'T', 'A', 'T',
   'S', '_', 'E', 'N', 'D', '-', '-', '>']

/-- Split a character sequence at the first occurrence of `pat`:
`some (a, b)` with `s = a ++ pat ++ b` and `a` shortest, `none` when `pat`
does not occur. -/
def firstSplit (pat : List Char) : List Char → Option (List Char × List Char)
  | [] => none
  | c :: rest =>
    if pat.isPrefixOf (c :: rest) then some ([], (c :: rest).drop pat.length)
    else (firstSplit pat rest).map (fun p => (c :: p.1, p.2))

/-- Split at the last occurrence of `pat`, via the first occurrence of the
reversed pattern in the reversed sequence. -/
def lastSplit (pat s : List Char) : Option (List Char × List Char) :=
  match firstSplit pat.reverse s.reverse with
  | none => none
  | some (a, b) => some (b.reverse, a.reverse)

/-- `readme.replace(/<!--GITHUB_STATS_START-->[\s\S]*<!--GITHUB_STATS_END-->/, ...)`:
the leftmost match of the non-global regex starts at the first occurrence
of the start sentinel and, `[\s\S]*` being greedy, stretches to the last
occurrence of the end sentinel; the matched span is replaced by the
sentinels wrapping a newline-framed rendered block, and when there is no
match the text is returned unchanged.  (The sentinels cannot overlap
themselves or each other: their only `<` is their first character.)  The
replacement is literal provided the rendered block contains no `$`, which
the host language would treat as a substitution escape. -/
def updateReadme (readme md : List Char) : List Char :=
  match firstSplit startM readme with
  | none => readme
  | some (a, b) =>
    match lastSplit endM b with
    | none => readme
    | some (_, d) => a ++ startM ++ ('\n' :: md ++ ['\n']) ++ endM ++ d

theorem isPrefixOf_iff_exists {pat l : List Char} :
    pat.isPrefixOf l = true ↔ ∃ t, l = pat ++ t := by
  induction pat generalizing l with
  | nil => simp [List.isPrefixOf]
  | cons p ps ih =>
    cases l with
    | nil => simp [List.isPrefixOf]
    | cons c cs =>
      simp only [List.isPrefixOf, Bool.and_eq_true, beq_iff_eq, ih,
        List.cons_append, List.cons.injEq]
      constructor
      · rintro ⟨rfl, t, rfl⟩; exact ⟨t, rfl, rfl⟩
      · rintro ⟨t, rfl, rfl⟩; exact ⟨rfl, t, rfl⟩

theorem firstSplit_some_spec (pat : List Char) :
    ∀ (s a b : List Char), firstSplit pat s = some (a, b) →
      s = a ++ pat ++ b ∧ ∀ c d, s = c ++ pat ++ d → a.length ≤ c.length := by
  intro s
  induction s with
  | nil => intro a b h; simp [firstSplit] at h
  | cons x rest ih =>
    intro a b h
    by_cases hp : pat.isPrefixOf (x :: rest) = true
    · rw [firstSplit, if_pos hp] at h
      rcases isPrefixOf_iff_exists.mp hp with ⟨t, ht⟩
      have hdrop : (x :: rest).drop pat.length = t := by
        rw [ht]; exact List.drop_left pat t
      rw [hdrop] at h
      simp only [Option.some.injEq, Prod.mk.injEq] at h
      obtain ⟨rfl, rfl⟩ := h
      exact ⟨by simpa using ht, fun c d _ => by simp⟩
    · rw [firstSplit, if_neg hp] at h
      cases hr : firstSplit pat rest with
      | none => rw [hr] at h; simp at h
      | some p =>
        rcases p with ⟨a1, b1⟩
        rw [hr] at h
        simp only [Option.map_some', Option.some.injEq, Prod.mk.injEq] at h
        obtain ⟨rfl, rfl⟩ := h
        rcases ih a1 b1 hr with ⟨hshape, hmin⟩
        constructor
        · simp [hshape]
        · intro c d hcd
          cases c with
          | nil =>
            exfalso
            apply hp
            exact isPrefixOf_iff_exists.mpr ⟨d, by simpa using hcd⟩
          | cons y c1 =>
            simp only [List.cons_append, List.cons.injEq] at hcd
            rcases hcd with ⟨rfl, hrest⟩
            have := hmin c1 d hrest
            simp only [List.length_cons]
            omega

theorem firstSplit_eq_some (pat : List Char) (hne : pat ≠ []) :
    ∀ (a b : List Char),
      (∀ c d, a ++ pat ++ b = c ++ pat ++ d → a.length ≤ c.length) →
      firstSplit pat (a ++ pat ++ b) = some (a, b) := by
  intro a
  induction a with
  | nil =>
    intro b _
    cases pat with
    | nil => exact absurd rfl hne
    | cons p ps =>
      have hp : (p :: ps).isPrefixOf ([] ++ (p :: ps) ++ b) = true :=
        isPrefixOf_iff_exists.mpr ⟨b, by simp⟩
      rw [show ([] : List Char) ++ (p :: ps) ++ b = p :: (ps ++ b) by simp]
      rw [firstSplit]
      rw [show (p :: (ps ++ b)) = ([] ++ (p :: ps) ++ b) by simp] at *
      rw [if_pos hp]
      have : ([] ++ (p :: ps) ++ b).drop (p :: ps).length = b := by
        simp [List.drop_left]
      rw [this]
  | cons x a1 ih =>
    intro b hmin
    have hnp : ¬ (pat.isPrefixOf ((x :: a1) ++ pat ++ b) = true) := by
      intro hp
      rcases isPrefixOf_iff_exists.mp hp with ⟨t, ht⟩
      have := hmin [] t (by simpa using ht)
      simp at this
    rw [show (x :: a1) ++ pat ++ b = x :: (a1 ++ pat ++ b) by simp] at *
    rw [firstSplit, if_neg hnp]
    have hmin1 : ∀ c d, a1 ++ pat ++ b = c ++ pat ++ d → a1.length ≤ c.length := by
      intro c d hcd
      have := hmin (x :: c) d (by simp [hcd])
      simpa using this
    rw [ih b hmin1]
    rfl

theorem lastSplit_some_spec (pat : List Char) (s c d : List Char)
    (h : lastSplit pat s = some (c, d)) :
    s = c ++ pat ++ d ∧ ∀ c' d', s = c' ++ pat ++ d' → c'.length ≤ c.length := by
  unfold lastSplit at h
  cases hr : firstSplit pat.reverse s.reverse with
  | none => rw [hr] at h; simp at h
  | some p =>
    rcases p with ⟨a, b⟩
    rw [hr] at h
    simp only [Option.some.injEq, Prod.mk.injEq] at h
    obtain ⟨rfl, rfl⟩ := h
    rcases firstSplit_some_spec pat.reverse s.reverse a b hr with ⟨hshape, hmin⟩
    have hs : s = b.reverse ++ pat ++ a.reverse := by
      have := congrArg List.reverse hshape
      simpa [List.reverse_append, List.append_assoc] using this
    refine ⟨hs, ?_⟩
    intro c' d' hcd
    have hrev : s.reverse = d'.reverse ++ pat.reverse ++ c'.reverse := by
      rw [hcd]; simp [List.reverse_append, List.append_assoc]
    have hlen := hmin d'.reverse c'.reverse hrev
    have h1 := congrArg List.length hshape
    have h2 := congrArg List.length hrev
    simp only [List.length_append, List.length_reverse] at h1 h2 hlen ⊢
    omega

theorem lastSplit_eq_some (pat : List Char) (hne : pat ≠ []) (c d : List Char)
    (hmax : ∀ c' d', c ++ pat ++ d = c' ++ pat ++ d' → c'.length ≤ c.length) :
    lastSplit pat (c ++ pat ++ d) = some (c, d) := by
  have hner : pat.reverse ≠ [] := by
    intro hcon
    exact hne (by simpa using congrArg List.reverse hcon)
  have hrev : (c ++ pat ++ d).reverse = d.reverse ++ pat.reverse ++ c.reverse := by
    simp [List.reverse_append, List.append_assoc]
  have hmin : ∀ e f, d.reverse ++ pat.reverse ++ c.reverse = e ++ pat.reverse ++ f →
      d.reverse.length ≤ e.length := by
    intro e f hef
    have hs : c ++ pat ++ d = f.reverse ++ pat ++ e.reverse := by
      have := congrArg List.reverse hef
      simpa [List.reverse_append, List.append_assoc] using this
    have h1 := hmax f.reverse e.reverse hs
    have h2 := congrArg List.length hs
    simp only [List.length_append, List.length_reverse] at h1 h2 ⊢
    omega
  have hfs := firstSplit_eq_some pat.reverse hner d.reverse c.reverse hmin
  unfold lastSplit
  rw [hrev, hfs]
  simp

theorem firstSplit_eq_none (pat : List Char) (s : List Char)
    (h : ∀ a b, s ≠ a ++ pat ++ b) : firstSplit pat s = none := by
  cases hf : firstSplit pat s with
  | none => rfl
  | some p =>
    rcases p with ⟨a, b⟩
    exact absurd (firstSplit_some_spec pat s a b hf).1 (h a b)

theorem startM_ne_nil : startM ≠ [] := by decide

theorem endM_ne_nil : endM ≠ [] := by decide

/-- The document-update equation: on a document that decomposes around the
first start sentinel and the last end sentinel, the update keeps the
outside verbatim and replaces the inside with the newline-framed block. -/
theorem updateReadme_spec (pre mid post md : List Char)
    (h1 : ∀ c d, pre ++ startM ++ mid ++ endM ++ post = c ++ startM ++ d →
      pre.length ≤ c.length)
    (h2 : ∀ c d, mid ++ endM ++ post = c ++ endM ++ d → c.length ≤ mid.length) :
    updateReadme (pre ++ startM ++ mid ++ endM ++ post) md
      = pre ++ startM ++ ('\n' :: md ++ ['\n']) ++ endM ++ post := by
  have hassoc : pre ++ startM ++ mid ++ endM ++ post
      = pre ++ startM ++ (mid ++ endM ++ post) := by
    simp [List.append_assoc]
  have h1' : ∀ c d, pre ++ startM ++ (mid ++ endM ++ post) = c ++ startM ++ d →
      pre.length ≤ c.length := by
    intro c d h
    exact h1 c d (by rw [hassoc]; exact h)
  have hf : firstSplit startM (pre ++ startM ++ (mid ++ endM ++ post))
      = some (pre, mid ++ endM ++ post) :=
    firstSplit_eq_some startM startM_ne_nil pre (mid ++ endM ++ post) h1'
  have hl : lastSplit endM (mid ++ endM ++ post) = some (mid, post) :=
    lastSplit_eq_some endM endM_ne_nil mid post h2
  rw [hassoc]
  unfold updateReadme
  simp only [hf, hl]

/-- Claim C5: one update of a document that splits as
prefix, start sentinel, interior, end sentinel, suffix — with the first
start sentinel beginning the marked region and the last end sentinel
closing it — leaves the prefix and suffix byte-for-byte unchanged and
makes the region between the sentinels exactly the freshly rendered block
(the rendered report framed by the template's two newlines).  The `$`-free
hypothesis keeps the host language's replacement string literal. -/
theorem c5_roundtrip_update (pre mid post md : List Char)
    (_hmd : '$' ∉ md)
    (h1 : ∀ c d, pre ++ startM ++ mid ++ endM ++ post = c ++ startM ++ d →
      pre.length ≤ c.length)
    (h2 : ∀ c d, mid ++ endM ++ post = c ++ endM ++ d → c.length ≤ mid.length) :
    updateReadme (pre ++ startM ++ mid ++ endM ++ post) md
      = pre ++ startM ++ ('\n' :: md ++ ['\n']) ++ endM ++ post :=
  updateReadme_spec pre mid post md h1 h2

theorem c5_roundtrip_update_witness :
    updateReadme (([] : List Char) ++ startM ++ ['x'] ++ endM ++ []) ['m']
      = ([] : List Char) ++ startM ++ ('\n' :: ['m'] ++ ['\n']) ++ endM ++ [] :=
  c5_roundtrip_update [] ['x'] [] ['m'] (by decide)
    (fun c d _ => Nat.zero_le _)
    (fun c d h => by
      have hlen := congrArg List.length h
      simp at hlen ⊢
      omega)


theorem endM_length : endM.length = 23 := rfl

/-- The end sentinel cannot overlap itself: no proper suffix of it is
also a prefix of it (its only opening angle bracket is its first
character). -/
theorem endM_no_self_overlap :
    ∀ j, j < 23 → 0 < j → endM.take (23 - j) ≠ endM.drop j := by decide

theorem drop_append_ge {X Z : List Char} {n : Nat} (h : X.length ≤ n) :
    (X ++ Z).drop n = Z.drop (n - X.length) := by
  rw [List.drop_append_eq_append_drop, List.drop_eq_nil_of_le h, List.nil_append]

theorem drop_append_le {X Z : List Char} {n : Nat} (h : n ≤ X.length) :
    (X ++ Z).drop n = X.drop n ++ Z := by
  rw [List.drop_append_eq_append_drop, show n - X.length = 0 by omega, List.drop_zero]

theorem take_append_le {X Z : List Char} {n : Nat} (h : n ≤ X.length) :
    (X ++ Z).take n = X.take n := by
  rw [List.take_append_eq_append_take, show n - X.length = 0 by omega,
    List.take_zero, List.append_nil]

/-- An occurrence of `pat` that begins strictly inside `a` is independent
of what follows `a ++ pat`. -/
theorem split_transfer {pat a c X d' : List Char} (Y : List Char)
    (h : a ++ pat ++ X = c ++ pat ++ d') (hlt : c.length < a.length) :
    ∃ t, a ++ pat ++ Y = c ++ pat ++ t := by
  have htake := congrArg (List.take (c.length + pat.length)) h
  have hub : c.length + pat.length - (a ++ pat).length = 0 := by
    simp only [List.length_append]; omega
  rw [List.take_append_eq_append_take, hub, List.take_zero, List.append_nil] at htake
  have hr : (c ++ pat ++ d').take (c.length + pat.length) = c ++ pat := by
    rw [show c.length + pat.length = (c ++ pat).length by simp]
    exact List.take_left (c ++ pat) d'
  rw [hr] at htake
  refine ⟨(a ++ pat).drop (c.length + pat.length) ++ Y, ?_⟩
  conv_lhs => rw [show a ++ pat = (a ++ pat).take (c.length + pat.length)
      ++ (a ++ pat).drop (c.length + pat.length) from
      (List.take_append_drop _ (a ++ pat)).symm]
  rw [htake]
  simp [List.append_assoc]

/-- In `I ++ endM ++ d` coming from a last-occurrence split `b = c0 ++ endM ++ d`,
no occurrence of the end sentinel starts after `I`: a straddling occurrence
would make the sentinel overlap itself, and one inside `d` would contradict
lastness in `b`. -/
theorem last_occurrence_bound {I d c' d' c0 b : List Char}
    (hb : b = c0 ++ endM ++ d)
    (hmaxC : ∀ e f, b = e ++ endM ++ f → e.length ≤ c0.length)
    (h' : I ++ endM ++ d = c' ++ endM ++ d') : c'.length ≤ I.length := by
  by_contra hgt
  push_neg at hgt
  have h2 : I ++ (endM ++ d) = c' ++ (endM ++ d') := by
    simpa [List.append_assoc] using h'
  rcases Nat.lt_or_ge c'.length (I.length + 23) with hcase | hcase
  · -- straddling occurrence: self-overlap of the end sentinel
    have hdrop := congrArg (List.drop c'.length) h2
    rw [List.drop_left c' (endM ++ d')] at hdrop
    rw [drop_append_ge (by omega)] at hdrop
    rw [drop_append_le (by rw [endM_length]; omega)] at hdrop
    have htake := congrArg (List.take (23 - (c'.length - I.length))) hdrop
    have hlen_dj : (endM.drop (c'.length - I.length)).length
        = 23 - (c'.length - I.length) := by
      rw [List.length_drop, endM_length]
    rw [take_append_le (by rw [hlen_dj])] at htake
    rw [take_append_le (by rw [endM_length]; omega)] at htake
    rw [List.take_of_length_le (le_of_eq hlen_dj)] at htake
    exact absurd htake.symm
      (endM_no_self_overlap (c'.length - I.length) (by omega) (by omega))
  · -- occurrence inside the kept suffix `d`
    have hdrop := congrArg (List.drop (I.length + 23)) h2
    rw [drop_append_ge (by omega : I.length ≤ I.length + 23)] at hdrop
    rw [show I.length + 23 - I.length = 23 by omega] at hdrop
    rw [drop_append_ge (le_of_eq endM_length)] at hdrop
    rw [endM_length, show (23 : Nat) - 23 = 0 by omega, List.drop_zero] at hdrop
    rw [drop_append_le (by omega)] at hdrop
    have hbsplit : b = (c0 ++ endM ++ c'.drop (I.length + 23)) ++ endM ++ d' := by
      rw [hb, hdrop]
      simp [List.append_assoc]
    have hc := hmaxC _ d' hbsplit
    simp only [List.length_append, endM_length] at hc
    omega

/-- Claim C8: the document update is idempotent — re-running it with
identical underlying data leaves the marked region byte-identical, without
duplicating sentinels or drifting the content outside them.  This holds
for every input document, including ones without a marked region (where
both runs are the identity); the rendered block is `$`-free, which keeps
the host language's replacement string literal. -/
theorem c8_update_idempotent (doc md : List Char) (_hmd : '$' ∉ md) :
    updateReadme (updateReadme doc md) md = updateReadme doc md := by
  cases hf : firstSplit startM doc with
  | none =>
    have e : updateReadme doc md = doc := by
      unfold updateReadme; simp only [hf]
    simp [e]
  | some p =>
    rcases p with ⟨a, b⟩
    cases hl : lastSplit endM b with
    | none =>
      have e : updateReadme doc md = doc := by
        unfold updateReadme; simp only [hf, hl]
      simp [e]
    | some q =>
      rcases q with ⟨c0, d⟩
      obtain ⟨hdoc, hminA⟩ := firstSplit_some_spec startM doc a b hf
      obtain ⟨hb, hmaxC⟩ := lastSplit_some_spec endM b c0 d hl
      have e1 : updateReadme doc md
          = a ++ startM ++ ('\n' :: md ++ ['\n']) ++ endM ++ d := by
        unfold updateReadme; simp only [hf, hl]
      have hminA' : ∀ c' d',
          a ++ startM ++ (('\n' :: md ++ ['\n']) ++ endM ++ d) = c' ++ startM ++ d' →
          a.length ≤ c'.length := by
        intro c' d' h'
        by_contra hlt
        push_neg at hlt
        obtain ⟨t, ht⟩ := split_transfer b h' hlt
        exact absurd (hminA c' t (hdoc.trans ht)) (by omega)
      have hf' : firstSplit startM (a ++ startM ++ (('\n' :: md ++ ['\n']) ++ endM ++ d))
          = some (a, ('\n' :: md ++ ['\n']) ++ endM ++ d) :=
        firstSplit_eq_some startM startM_ne_nil a _ hminA'
      have hmax' : ∀ c' d',
          ('\n' :: md ++ ['\n']) ++ endM ++ d = c' ++ endM ++ d' →
          c'.length ≤ ('\n' :: md ++ ['\n']).length := by
        intro c' d' h'
        exact last_occurrence_bound hb hmaxC h'
      have hl' : lastSplit endM (('\n' :: md ++ ['\n']) ++ endM ++ d)
          = some ('\n' :: md ++ ['\n'], d) :=
        lastSplit_eq_some endM endM_ne_nil _ d hmax'
      rw [e1]
      rw [show a ++ startM ++ ('\n' :: md ++ ['\n']) ++ endM ++ d
          = a ++ startM ++ (('\n' :: md ++ ['\n']) ++ endM ++ d) by
        simp [List.append_assoc]]
      unfold updateReadme
      simp only [hf', hl']
      simp [List.append_assoc]

theorem c8_update_idempotent_witness :
    updateReadme (updateReadme (startM ++ ['x'] ++ endM) ['m']) ['m']
      = updateReadme (startM ++ ['x'] ++ endM) ['m'] :=
  c8_update_idempotent (startM ++ ['x'] ++ endM) ['m'] (by decide)

/-- Whether `pat` occurs anywhere in a character sequence. -/
def containsSeq (pat : List Char) : List Char → Bool
  | [] => false
  | c :: rest => pat.isPrefixOf (c :: rest) || containsSeq pat rest

theorem containsSeq_of_split (pat : List Char) (hne : pat ≠ []) :
    ∀ a b, containsSeq pat (a ++ pat ++ b) = true := by
  intro a
  induction a with
  | nil =>
    intro b
    cases pat with
    | nil => exact absurd rfl hne
    | cons p ps =>
      rw [show ([] : List Char) ++ (p :: ps) ++ b = p :: (ps ++ b) by simp]
      rw [containsSeq]
      have hp : (p :: ps).isPrefixOf (p :: (ps ++ b)) = true :=
        isPrefixOf_iff_exists.mpr ⟨b, by simp⟩
      rw [hp, Bool.true_or]
  | cons x a1 ih =>
    intro b
    rw [show (x :: a1) ++ pat ++ b = x :: (a1 ++ pat ++ b) by simp]
    rw [containsSeq, ih b, Bool.or_true]

theorem updateReadme_no_marker (doc md : List Char)
    (h : containsSeq startM doc = false) : updateReadme doc md = doc := by
  have hn : firstSplit startM doc = none := by
    apply firstSplit_eq_none
    intro a b hab
    rw [hab, containsSeq_of_split startM startM_ne_nil a b] at h
    exact Bool.true_eq_false.mp h
  unfold updateReadme
  simp only [hn]

/-- The contribution counters of the current period, as fetched. -/
structure Contribs where
  totalCommitContributions : Nat
  totalIssueContributions : Nat
  totalPullRequestContributions : Nat
  totalPullRequestReviewContributions : Nat
  restrictedContributionsCount : Nat
deriving DecidableEq

/-- The scalars of the first (count) query. -/
structure CountData where
  ownedCount : Nat
  orgReposCount : Nat
  orgCount : Nat
deriving DecidableEq

/-- The data of the second (detail) query; `repos` is the concatenation of
the four partitions, each record tagged with its source bucket. -/
structure ViewerData where
  login : String
  followers : Nat
  contribs : Contribs
  repos : List Repo
deriving DecidableEq

/-- `n.toLocaleString()` under the default grouping: decimal digits in
groups of three separated by commas. -/
def groupChunks : List Char → List Char
  | a :: b :: c :: e :: rest => a :: b :: c :: ',' :: groupChunks (e :: rest)
  | l => l

def groupDigits (n : Nat) : String :=
  String.mk (groupChunks (toString n).data.reverse).reverse

/-- The markdown template of the rendered report (the `md` template
literal), with `new Date().toISOString()` passed in as `now`. -/
def renderMd (cd : CountData) (v : ViewerData) (now : String) : String :=
  "\n**GitHub Stats for @" ++ v.login ++ "**\n\n### 📊 Repository Statistics\n- **Total Repositories**: "
  ++ toString (cd.ownedCount + cd.orgReposCount) ++ " (" ++ toString cd.ownedCount
  ++ " owned, " ++ toString cd.orgReposCount ++ " org)\n- **Repositories with Contributions**: "
  ++ toString (contributedRepos v.repos).length ++ " (" ++ toString (ownedContributed v.repos).length
  ++ " owned, " ++ toString (orgContributed v.repos).length ++ " org)\n- **Forked Repositories**: "
  ++ toString (forkedRepos v.repos) ++ "\n- **Total Stars Earned**: ⭐ " ++ toString (stars v.repos)
  ++ "\n- **Total Forks**: 🍴 " ++ toString (forks v.repos)
  ++ "\n\n### 💻 Contribution Statistics\n- **Total Commits**: "
  ++ groupDigits v.contribs.totalCommitContributions ++ " (this year)\n- **Total Commits in Repos**: "
  ++ groupDigits (totalCommits v.repos) ++ " (all time in fetched repos)\n- **Pull Requests**: "
  ++ toString v.contribs.totalPullRequestContributions ++ " (this year)\n- **Issues Opened**: "
  ++ toString v.contribs.totalIssueContributions ++ " (this year)\n- **Code Reviews**: "
  ++ toString v.contribs.totalPullRequestReviewContributions ++ " (this year)"
  ++ "\n\n### 🌐 Community\n- **Organizations**: " ++ toString cd.orgCount
  ++ "\n- **Followers**: " ++ toString v.followers
  ++ "\n\n### 🔤 Top Languages\n" ++ topLangsStr v.repos
  ++ "\n\n_Last updated: " ++ now ++ "_\n  "

/-- One observable effect of the run: a standard-output line, a
standard-error line, a network POST (numbered query), a file read or a
file write. -/
inductive Eff where
  | out (s : String)
  | err (s : String)
  | net (q : Nat)
  | fileRead (path : String)
  | fileWrite (path : String) (content : List Char)
deriving DecidableEq

def isFileEff : Eff → Bool
  | Eff.fileRead _ => true
  | Eff.fileWrite _ _ => true
  | _ => false

def isNetEff : Eff → Bool
  | Eff.net _ => true
  | _ => false

def isOutEff : Eff → Bool
  | Eff.out _ => true
  | _ => false

/-- The effect trace and exit code of one run of the script. -/
structure RunResult where
  trace : List Eff
  exitCode : Nat
deriving DecidableEq

/-- `console.log("GH_USER:", process.env.GH_USER)` prints the value, or
the text `undefined` for an unset variable. -/
def showEnvVal : Option String → String
  | none => "undefined"
  | some s => s

/-- JS falsiness of an environment string: unset, or the empty string. -/
def falsy : Option String → Bool
  | none => true
  | some s => s == ""

def countLogs (cd : CountData) : List Eff :=
  [Eff.out ("Owned repos: " ++ toString cd.ownedCount),
   Eff.out ("Org repos: " ++ toString cd.orgReposCount),
   Eff.out ("Total repos: " ++ toString (cd.ownedCount + cd.orgReposCount)),
   Eff.out ("Organizations: " ++ toString cd.orgCount)]

def mainLogs (v : ViewerData) : List Eff :=
  [Eff.out ("Total repos fetched: " ++ toString v.repos.length),
   Eff.out ("Repos with contributions: " ++ toString (contributedRepos v.repos).length)]

/-- The whole script as a function of its ambient inputs: the two
environment values, the transport's answer to each of the two queries
(`Except.error` is an `errors` payload, on which `gql` logs and exits 1),
the current README text and the timestamp.  The result records the
ordered effect trace up to termination and the exit code. -/
def run (ghUser ghToken : Option String) (r1 : Except String CountData)
    (r2 : Except String ViewerData) (readme : List Char) (now : String) : RunResult :=
  let t0 : List Eff :=
    [Eff.out ("GH_USER: " ++ showEnvVal ghUser),
     Eff.out ("GH_TOKEN: " ++ showEnvVal ghToken)]
  if falsy ghUser || falsy ghToken then
    { trace := t0 ++ [Eff.err "Missing GH_USER or GH_TOKEN"], exitCode := 1 }
  else
    match r1 with
    | Except.error e =>
      { trace := t0 ++ [Eff.net 1, Eff.err ("GraphQL Errors: " ++ e)], exitCode := 1 }
    | Except.ok cd =>
      match r2 with
      | Except.error e =>
        { trace := t0 ++ [Eff.net 1] ++ countLogs cd
            ++ [Eff.net 2, Eff.err ("GraphQL Errors: " ++ e)], exitCode := 1 }
      | Except.ok v =>
        { trace := t0 ++ [Eff.net 1] ++ countLogs cd ++ [Eff.net 2] ++ mainLogs v
            ++ [Eff.fileRead "README.md",
                Eff.fileWrite "README.md" (updateReadme readme (renderMd cd v now).data),
                Eff.out "README updated with stats"],
          exitCode := 0 }

/-- Claim C6: if either query's transport answer is an errors payload, the
run exits with code 1 and its effect trace contains no file read and no
file write — the target document is never touched, hence never partially
rewritten. -/
theorem c6_fail_fast_aborts (u t : Option String) (r1 : Except String CountData)
    (r2 : Except String ViewerData) (readme : List Char) (now : String)
    (h : (∃ e, r1 = Except.error e) ∨ (∃ e, r2 = Except.error e)) :
    (run u t r1 r2 readme now).exitCode = 1
    ∧ ∀ eff ∈ (run u t r1 r2 readme now).trace, isFileEff eff = false := by
  by_cases hc : (falsy u || falsy t) = true
  · exact ⟨by simp [run, hc], by simp [run, hc, isFileEff]⟩
  · cases r1 with
    | error e => exact ⟨by simp [run, hc], by simp [run, hc, isFileEff]⟩
    | ok cd =>
      cases r2 with
      | error e =>
        exact ⟨by simp [run, hc], by simp [run, hc, isFileEff, countLogs]⟩
      | ok v =>
        rcases h with ⟨e, he⟩ | ⟨e, he⟩ <;> exact absurd he (by simp)

theorem c6_fail_fast_aborts_witness :
    (run (some "u") (some "tk") (Except.error "boom")
        (Except.error "boom") [] "T").exitCode = 1
    ∧ ∀ eff ∈ (run (some "u") (some "tk") (Except.error "boom")
        (Except.error "boom") [] "T").trace, isFileEff eff = false :=
  c6_fail_fast_aborts (some "u") (some "tk") (Except.error "boom")
    (Except.error "boom") [] "T" (Or.inl ⟨"boom", rfl⟩)

/-- Claim C7 as stated is false on the code: on a run with a missing
credential the process does exit with code 1 after the stderr report, but
two standard-output writes — the debug lines printing both environment
values, the secret token included — have already been performed, so
termination does not precede all I/O. -/
theorem c7_missing_creds_counterexample :
    (run none (some "s3cret") (Except.error "e") (Except.error "e") [] "T").exitCode = 1
    ∧ (run none (some "s3cret") (Except.error "e") (Except.error "e") [] "T").trace.head?
      = some (Eff.out "GH_USER: undefined")
    ∧ (run none (some "s3cret") (Except.error "e") (Except.error "e") [] "T").trace[1]?
      = some (Eff.out "GH_TOKEN: s3cret") := by decide

/-- Claim C7, amended: if either environment credential is absent (or
empty, which the source's falsiness test also treats as missing), the run
writes the message to the operator-facing error stream and terminates with
exit code 1 before any network call or file access; the whole trace is the
two standard-output debug lines followed by that error line. -/
theorem c7_missing_creds_amended (u t : Option String) (r1 : Except String CountData)
    (r2 : Except String ViewerData) (readme : List Char) (now : String)
    (h : (falsy u || falsy t) = true) :
    (run u t r1 r2 readme now).exitCode = 1
    ∧ (run u t r1 r2 readme now).trace
      = [Eff.out ("GH_USER: " ++ showEnvVal u), Eff.out ("GH_TOKEN: " ++ showEnvVal t),
         Eff.err "Missing GH_USER or GH_TOKEN"] := by
  exact ⟨by simp [run, h], by simp [run, h]⟩

theorem c7_missing_creds_amended_witness :
    (run none (some "tk") (Except.error "e") (Except.error "e") [] "T").exitCode = 1
    ∧ (run none (some "tk") (Except.error "e") (Except.error "e") [] "T").trace
      = [Eff.out ("GH_USER: " ++ showEnvVal none),
         Eff.out ("GH_TOKEN: " ++ showEnvVal (some "tk")),
         Eff.err "Missing GH_USER or GH_TOKEN"] :=
  c7_missing_creds_amended none (some "tk") (Except.error "e") (Except.error "e")
    [] "T" (by decide)

/-- Claim C9: on a document with no sentinel markers the replace is a
no-op on the content, yet the successful run still performs the file
write — with the byte-identical content. -/
theorem c9_no_marker_noop (u t : Option String) (cd : CountData) (v : ViewerData)
    (doc : List Char) (now : String) (md : List Char)
    (hu : falsy u = false) (ht : falsy t = false)
    (hm : containsSeq startM doc = false) :
    updateReadme doc md = doc
    ∧ Eff.fileWrite "README.md" doc
      ∈ (run u t (Except.ok cd) (Except.ok v) doc now).trace := by
  have hnoop : ∀ m, updateReadme doc m = doc :=
    fun m => updateReadme_no_marker doc m hm
  refine ⟨hnoop md, ?_⟩
  simp [run, hu, ht, countLogs, mainLogs, hnoop]

theorem c9_no_marker_noop_witness :
    updateReadme ['h', 'e', 'y'] ['m'] = ['h', 'e', 'y']
    ∧ Eff.fileWrite "README.md" ['h', 'e', 'y']
      ∈ (run (some "u") (some "tk") (Except.ok ⟨0, 0, 0⟩)
          (Except.ok ⟨"l", 0, ⟨0, 0, 0, 0, 0⟩, []⟩) ['h', 'e', 'y'] "T").trace :=
  c9_no_marker_noop (some "u") (some "tk") ⟨0, 0, 0⟩ ⟨"l", 0, ⟨0, 0, 0, 0, 0⟩, []⟩
    ['h', 'e', 'y'] "T" ['m'] (by decide) (by decide) (by decide)

/-- Claim C10: on every run — whatever the credentials, transport answers
or document — the first two effects are standard-output writes of both
environment values, the secret bearer token included, and they precede the
credential check's outcome, every network call and every file access. -/
theorem c10_credentials_logged (u t : Option String) (r1 : Except String CountData)
    (r2 : Except String ViewerData) (readme : List Char) (now : String) :
    (run u t r1 r2 readme now).trace.take 2
      = [Eff.out ("GH_USER: " ++ showEnvVal u), Eff.out ("GH_TOKEN: " ++ showEnvVal t)]
    ∧ ∀ eff ∈ (run u t r1 r2 readme now).trace.take 2,
        isNetEff eff = false ∧ isFileEff eff = false := by
  by_cases hc : (falsy u || falsy t) = true
  · exact ⟨by simp [run, hc], by simp [run, hc, isNetEff, isFileEff]⟩
  · cases r1 with
    | error e => exact ⟨by simp [run, hc], by simp [run, hc, isNetEff, isFileEff]⟩
    | ok cd =>
      cases r2 with
      | error e =>
        exact ⟨by simp [run, hc], by simp [run, hc, isNetEff, isFileEff, countLogs]⟩
      | ok v =>
        exact ⟨by simp [run, hc], by simp [run, hc, isNetEff, isFileEff, countLogs, mainLogs]⟩
